import Mathlib

/-!
Verification of `scripts/update-stats.js`.

The script fetches a GitHub contribution calendar, flattens it to a list of
`{date, count}` records, computes three statistics (`total`, `longestStreak`,
`currentStreak`), renders a badge block, and splices that block between two
sentinel comment lines of a README file.

This file gives a shallow embedding of the pure parts of the script:
  * `Day`, `Stats`, `statsStep`, `currentStreakFrom`, `computeStats`
    embed the `computeStats` function (lines 126-154 of the script);
  * `RawDay`, `Week`, `Calendar`, `coerceCount`, `flattenCalendar`
    embed the flattening step of `fetchAllContributionDays` (lines 44-52);
  * `beginsWith`, `splitAtFirst`, `hasOccur`, `replaceSpan`, `injectStats`
    embed the file patcher `injectStats` (lines 175-187), with the file
    system abstracted: the returned `Except.ok` value is the text written
    back, and `Except.error` is the thrown `ConfigError` (no write occurs).
-/

/-- A contribution day as built by the aggregator: the object
`{ date: day.date, count: ... }` pushed into `days`.  The count is an
integer (`Number(...) || 0` in the script can produce any integer). -/
structure Day where
  date : String
  count : Int
  deriving DecidableEq

/-- The record `{ total, longestStreak, currentStreak }` returned by
`computeStats`. -/
structure Stats where
  total : Int
  longestStreak : Nat
  currentStreak : Nat
  deriving DecidableEq

/-- One iteration of the first loop of `computeStats` on state
`(total, longestStreak, rolling)`:
`total += day.count`; if `day.count > 0` then `rolling += 1` and
`longestStreak` is raised to `rolling` when exceeded, else `rolling = 0`. -/
def statsStep (acc : Int × Nat × Nat) (day : Day) : Int × Nat × Nat :=
  if 0 < day.count then
    (acc.1 + day.count,
     if acc.2.1 < acc.2.2 + 1 then acc.2.2 + 1 else acc.2.1,
     acc.2.2 + 1)
  else
    (acc.1 + day.count, acc.2.1, 0)

/-- The second loop of `computeStats`: it walks `i = days.length - 1` down to
`0`, adding one while `days[i].count > 0` and breaking at the first failure.
Visiting indices backwards is exactly visiting `days.reverse` in order, so we
embed the loop as a recursion on that list. -/
def currentStreakFrom : List Day → Nat
  | [] => 0
  | d :: rest => if 0 < d.count then currentStreakFrom rest + 1 else 0

/-- Embedding of `computeStats` (script lines 126-154). -/
def computeStats (days : List Day) : Stats :=
  let acc := days.foldl statsStep (0, 0, 0)
  { total := acc.1
    longestStreak := acc.2.1
    currentStreak := currentStreakFrom days.reverse }

/-- Whether `day.count > 0`, as a Boolean predicate. -/
def posDay (d : Day) : Bool := decide (0 < d.count)

/-- Sum of the `count` fields. -/
def sumCounts (l : List Day) : Int := (l.map Day.count).sum

/-- Length of the leading run of positive-count days. -/
def posPre (l : List Day) : Nat := (l.takeWhile posDay).length

/-- Length of the longest contiguous run of positive-count days: the maximum,
over all suffixes, of the length of the leading positive run. -/
def longestRun : List Day → Nat
  | [] => 0
  | d :: rest => max (posPre (d :: rest)) (longestRun rest)

/-- A day of the raw API response: `{ date, contributionCount }`.  We model
`contributionCount` as `Option Int`: `some n` for an integer value, `none`
for a missing or non-numeric value (whose `Number(...)` is `NaN`). -/
structure RawDay where
  date : String
  contributionCount : Option Int
  deriving DecidableEq

/-- A week of the raw API response. -/
structure Week where
  contributionDays : List RawDay
  deriving DecidableEq

/-- The `contributionCalendar` part of one yearly API response. -/
structure Calendar where
  weeks : List Week
  deriving DecidableEq

/-- Models the script expression `Number(day.contributionCount) || 0`:
`Number` of a missing or non-numeric value is `NaN` and `NaN || 0` is `0`;
the number `0` also falls through `||` to `0`; any other number passes
through unchanged (in particular a negative number stays negative). -/
def coerceCount : Option Int → Int
  | none => 0
  | some n => n

/-- The flattening step of `fetchAllContributionDays` for one calendar
response: `calendar.weeks.flatMap(week => week.contributionDays.map(...))`. -/
def flattenCalendar (cal : Calendar) : List Day :=
  cal.weeks.flatMap fun w =>
    w.contributionDays.map fun d =>
      { date := d.date, count := coerceCount d.contributionCount }

/-- Does `s` start with `pat`? -/
def beginsWith : List Char → List Char → Bool
  | [], _ => true
  | _ :: _, [] => false
  | p :: ps, c :: cs => p == c && beginsWith ps cs

/-- Split `s` at the first occurrence of `pat`: returns `some (pre, post)`
with `s = pre ++ pat ++ post` and `pre` shortest possible, or `none` when
`pat` does not occur in `s`. -/
def splitAtFirst (pat : List Char) : List Char → Option (List Char × List Char)
  | [] => if beginsWith pat [] then some ([], []) else none
  | c :: rest =>
    if beginsWith pat (c :: rest) then some ([], (c :: rest).drop pat.length)
    else (splitAtFirst pat rest).map fun pr => (c :: pr.1, pr.2)

/-- Models `String.prototype.includes`. -/
def hasOccur (pat s : List Char) : Bool := (splitAtFirst pat s).isSome

/-- Models `content.replace(new RegExp(S + "[\\s\\S]*?" + E), repl)` for the
two literal marker strings (neither contains a regex metacharacter).  The
regex matches at the leftmost occurrence of `S` that is followed by an
occurrence of `E`, and the lazy quantifier picks the earliest such `E`; when
the first occurrence of `S` has no `E` after it, no later one has either, so
the regex fails to match anywhere and `replace` returns the string unchanged.
The replacement is spliced literally (the script's replacement never contains
the character `$`, which `replace` would treat specially). -/
def replaceSpan (startPat endPat repl s : List Char) : List Char :=
  match splitAtFirst startPat s with
  | none => s
  | some (pre, rest) =>
    match splitAtFirst endPat rest with
    | none => s
    | some (_, post) => pre ++ repl ++ post

/-- The start sentinel `START_MARKER` of the script. -/
def START_MARKER : List Char := "<!-- GITHUB-STATS:START -->".toList

/-- The end sentinel `END_MARKER` of the script. -/
def END_MARKER : List Char := "<!-- GITHUB-STATS:END -->".toList

/-- Embedding of `injectStats` (script lines 175-187).  `content` is the text
read from the README; a returned `Except.ok u` means the script writes `u`
back to the file; `Except.error` is the thrown error (raised before any
write, so the file is untouched in that case). -/
def injectStats (content statsBlock : List Char) : Except String (List Char) :=
  if hasOccur START_MARKER content && hasOccur END_MARKER content then
    Except.ok (replaceSpan START_MARKER END_MARKER statsBlock content)
  else
    Except.error "README is missing required GITHUB-STATS markers."

/-- Is there a start-sentinel-through-end-sentinel span in `s`, i.e. an
occurrence of `p` followed (at or after its end) by an occurrence of `q`?
Equivalently (see `span_imp_hasSpan` and `hasSpan_imp_span`): can `s` be
written `x ++ p ++ m ++ q ++ y`? -/
def hasSpan (p q s : List Char) : Bool :=
  match splitAtFirst p s with
  | none => false
  | some pr => hasOccur q pr.2

/-! ### Lemmas about `computeStats` -/

theorem posPre_cons (d : Day) (l : List Day) :
    posPre (d :: l) = if 0 < d.count then posPre l + 1 else 0 := by
  by_cases h : 0 < d.count
  · simp [posPre, posDay, List.takeWhile_cons, h]
  · simp [posPre, posDay, List.takeWhile_cons, h]

theorem posPre_le_longestRun (l : List Day) : posPre l ≤ longestRun l := by
  cases l with
  | nil => simp [posPre, longestRun]
  | cons d rest =>
    simp only [longestRun]
    exact Nat.le_max_left _ _

theorem foldl_statsStep_total (l : List Day) (t : Int) (a r : Nat) :
    (l.foldl statsStep (t, a, r)).1 = t + sumCounts l := by
  induction l generalizing t a r with
  | nil => simp [sumCounts]
  | cons d rest ih =>
    simp only [List.foldl_cons, statsStep]
    by_cases h : 0 < d.count
    · rw [if_pos h, ih]
      simp [sumCounts]
      ring
    · rw [if_neg h, ih]
      simp [sumCounts]
      ring

theorem foldl_statsStep_longest (l : List Day) (t : Int) (a r : Nat) (h : r ≤ a) :
    (l.foldl statsStep (t, a, r)).2.1 = max a (max (r + posPre l) (longestRun l)) := by
  induction l generalizing t a r with
  | nil =>
    simp [posPre, longestRun]
    omega
  | cons d rest ih =>
    simp only [List.foldl_cons, statsStep]
    by_cases hd : 0 < d.count
    · rw [if_pos hd, ih _ _ _ (by split <;> omega : r + 1 ≤ if a < r + 1 then r + 1 else a)]
      simp only [longestRun, posPre_cons, if_pos hd, Nat.max_def]
      split_ifs <;> omega
    · rw [if_neg hd, ih _ _ _ (Nat.zero_le a)]
      simp only [longestRun, posPre_cons, if_neg hd, Nat.max_def]
      have := posPre_le_longestRun rest
      split_ifs <;> omega

theorem computeStats_total (days : List Day) :
    (computeStats days).total = sumCounts days := by
  have h := foldl_statsStep_total days 0 0 0
  simpa [computeStats] using h

theorem computeStats_longest (days : List Day) :
    (computeStats days).longestStreak = longestRun days := by
  have h := foldl_statsStep_longest days 0 0 0 (Nat.le_refl 0)
  have h2 := posPre_le_longestRun days
  simp only [computeStats]
  rw [h]
  omega

theorem currentStreakFrom_eq (l : List Day) :
    currentStreakFrom l = (l.takeWhile posDay).length := by
  induction l with
  | nil => rfl
  | cons d rest ih =>
    by_cases h : 0 < d.count
    · simp [currentStreakFrom, posDay, h, ih]
    · simp [currentStreakFrom, posDay, h]

theorem mem_takeWhile_true {α : Type} {p : α → Bool} :
    ∀ {l : List α} {x : α}, x ∈ l.takeWhile p → p x = true := by
  intro l
  induction l with
  | nil =>
    intro x h
    simp [List.takeWhile] at h
  | cons c cs ih =>
    intro x h
    by_cases hc : p c
    · rw [List.takeWhile_cons_of_pos hc] at h
      rcases List.mem_cons.mp h with rfl | h2
      · exact hc
      · exact ih h2
    · rw [List.takeWhile_cons_of_neg hc] at h
      simp at h

theorem dropWhile_head_false {α : Type} {p : α → Bool} :
    ∀ {l : List α} {x : α} {xs : List α}, l.dropWhile p = x :: xs → p x = false := by
  intro l
  induction l with
  | nil =>
    intro x xs h
    simp [List.dropWhile] at h
  | cons c cs ih =>
    intro x xs h
    by_cases hc : p c
    · rw [List.dropWhile_cons_of_pos hc] at h
      exact ih h
    · rw [List.dropWhile_cons_of_neg hc] at h
      cases h
      simpa using hc

theorem reverse_split {α : Type} (l : List α) (p : α → Bool) :
    l = (l.reverse.dropWhile p).reverse ++ (l.reverse.takeWhile p).reverse := by
  conv_lhs => rw [← List.reverse_reverse l,
    ← List.takeWhile_append_dropWhile p l.reverse]
  rw [List.reverse_append]

theorem currentStreak_decomp (days : List Day) :
    ∃ a m, days = a ++ m ∧ (∀ d ∈ m, 0 < d.count) ∧
      m.length = (computeStats days).currentStreak ∧
      (a = [] ∨ ∃ a2 d, a = a2 ++ [d] ∧ d.count ≤ 0) := by
  refine ⟨(days.reverse.dropWhile posDay).reverse, (days.reverse.takeWhile posDay).reverse,
    reverse_split days posDay, ?_, ?_, ?_⟩
  · intro d hd
    rw [List.mem_reverse] at hd
    have := mem_takeWhile_true hd
    simpa [posDay] using this
  · rw [List.length_reverse]
    simp [computeStats, currentStreakFrom_eq]
  · rcases hdw : days.reverse.dropWhile posDay with _ | ⟨x, xs⟩
    · left
      simp
    · right
      refine ⟨xs.reverse, x, by simp, ?_⟩
      have := dropWhile_head_false hdw
      simp [posDay] at this
      omega

theorem posPre_append_ge (m b : List Day) (hm : ∀ d ∈ m, 0 < d.count) :
    m.length ≤ posPre (m ++ b) := by
  induction m with
  | nil => simp
  | cons d rest ih =>
    have hd : 0 < d.count := hm d (List.mem_cons_self d rest)
    rw [List.cons_append, posPre_cons, if_pos hd]
    have := ih fun x hx => hm x (List.mem_cons_of_mem d hx)
    simpa using Nat.succ_le_succ this

theorem longestRun_ge (a m b : List Day) (hm : ∀ d ∈ m, 0 < d.count) :
    m.length ≤ longestRun (a ++ m ++ b) := by
  induction a with
  | nil =>
    simp only [List.nil_append]
    exact Nat.le_trans (posPre_append_ge m b hm) (posPre_le_longestRun (m ++ b))
  | cons c a2 ih =>
    simp only [List.cons_append, longestRun]
    exact Nat.le_trans ih (Nat.le_max_right _ _)

theorem longestRun_exists (days : List Day) :
    ∃ a m b, days = a ++ m ++ b ∧ (∀ d ∈ m, 0 < d.count) ∧
      m.length = longestRun days := by
  induction days with
  | nil => exact ⟨[], [], [], rfl, by simp, rfl⟩
  | cons d rest ih =>
    obtain ⟨a, m, b, hd, hm, hl⟩ := ih
    rcases le_or_lt (posPre (d :: rest)) (longestRun rest) with hle | hlt
    · refine ⟨d :: a, m, b, by rw [hd]; simp, hm, ?_⟩
      simp only [longestRun]
      omega
    · refine ⟨[], (d :: rest).takeWhile posDay, (d :: rest).dropWhile posDay, ?_, ?_, ?_⟩
      · rw [List.nil_append, List.takeWhile_append_dropWhile]
      · intro x hx
        have := mem_takeWhile_true hx
        simpa [posDay] using this
      · simp only [longestRun]
        have : ((d :: rest).takeWhile posDay).length = posPre (d :: rest) := rfl
        omega

/-! ### Claims about the statistics computer -/

/-- Claim C1: for every day sequence, `computeStats` returns `longestStreak`
equal to the length of the longest run of consecutive entries (in sequence
order) each with `count > 0`: some contiguous all-positive segment has exactly
that length, and every contiguous all-positive segment is at most that long
(an entry with `count = 0` resets the running streak, so no counted run
crosses one). -/
theorem C1_longestStreak_is_longest_positive_run (days : List Day) :
    (∃ a m b, days = a ++ m ++ b ∧ (∀ d ∈ m, 0 < d.count) ∧
      m.length = (computeStats days).longestStreak) ∧
    (∀ a m b, days = a ++ m ++ b → (∀ d ∈ m, 0 < d.count) →
      m.length ≤ (computeStats days).longestStreak) := by
  constructor
  · obtain ⟨a, m, b, hd, hm, hl⟩ := longestRun_exists days
    exact ⟨a, m, b, hd, hm, by rw [computeStats_longest]; exact hl⟩
  · intro a m b hd hm
    rw [computeStats_longest, hd]
    exact longestRun_ge a m b hm

/-- Witness for C1, at the day sequence of the specification's Scenario A. -/
theorem C1_witness :
    ([⟨"d3", 3⟩, ⟨"d4", 2⟩] : List Day).length ≤
      (computeStats [⟨"d1", 5⟩, ⟨"d2", 0⟩, ⟨"d3", 3⟩, ⟨"d4", 2⟩]).longestStreak :=
  (C1_longestStreak_is_longest_positive_run
      [⟨"d1", 5⟩, ⟨"d2", 0⟩, ⟨"d3", 3⟩, ⟨"d4", 2⟩]).2
    [⟨"d1", 5⟩, ⟨"d2", 0⟩] [⟨"d3", 3⟩, ⟨"d4", 2⟩] [] (by decide) (by decide)

/-- Claim C2: `currentStreak` is the number of trailing entries with
`count > 0`: the sequence splits as `a ++ m` where the trailing part `m` has
only positive counts and length `currentStreak`, and the backward scan
stopped either because the sequence was exhausted (`a = []`) or at the first
non-positive entry, the last element of `a`. -/
theorem C2_currentStreak_counts_trailing (days : List Day) :
    ∃ a m, days = a ++ m ∧ (∀ d ∈ m, 0 < d.count) ∧
      m.length = (computeStats days).currentStreak ∧
      (a = [] ∨ ∃ a2 d, a = a2 ++ [d] ∧ d.count ≤ 0) :=
  currentStreak_decomp days

/-- Witness for C2, at the day sequence of the specification's Scenario A. -/
theorem C2_witness :
    ∃ a m, ([⟨"d1", 5⟩, ⟨"d2", 0⟩, ⟨"d3", 3⟩, ⟨"d4", 2⟩] : List Day) = a ++ m ∧
      (∀ d ∈ m, 0 < d.count) ∧
      m.length = (computeStats [⟨"d1", 5⟩, ⟨"d2", 0⟩, ⟨"d3", 3⟩, ⟨"d4", 2⟩]).currentStreak ∧
      (a = [] ∨ ∃ a2 d, a = a2 ++ [d] ∧ d.count ≤ 0) :=
  C2_currentStreak_counts_trailing [⟨"d1", 5⟩, ⟨"d2", 0⟩, ⟨"d3", 3⟩, ⟨"d4", 2⟩]

/-- Claim C3: `total` is the sum of the `count` values of all entries, and
that value is invariant under any permutation of the sequence. -/
theorem C3_total_is_sum_and_perm_invariant (days : List Day) :
    (computeStats days).total = sumCounts days ∧
    ∀ days2, days.Perm days2 →
      (computeStats days).total = (computeStats days2).total := by
  refine ⟨computeStats_total days, ?_⟩
  intro days2 hp
  rw [computeStats_total, computeStats_total]
  unfold sumCounts
  exact List.Perm.sum_eq (List.Perm.map Day.count hp)

/-- Witness for C3, at a concrete two-day sequence and its swap. -/
theorem C3_witness :
    (computeStats [⟨"d1", 2⟩, ⟨"d2", 3⟩]).total =
      (computeStats [⟨"d2", 3⟩, ⟨"d1", 2⟩]).total :=
  (C3_total_is_sum_and_perm_invariant [⟨"d1", 2⟩, ⟨"d2", 3⟩]).2
    [⟨"d2", 3⟩, ⟨"d1", 2⟩] (by decide)

/-- Claim C4 counterexample: the claim asserts that some day sequence has
`longestStreak < currentStreak`.  In fact no day sequence does: the trailing
positive run counted by `currentStreak` is itself a contiguous positive run,
so the first loop's maximum is at least as large. -/
theorem C4_counterexample :
    ¬ ∃ days : List Day,
        (computeStats days).longestStreak < (computeStats days).currentStreak := by
  rintro ⟨days, hlt⟩
  obtain ⟨a, m, hd, hm, hlen, -⟩ := currentStreak_decomp days
  have h2 : m.length ≤ (computeStats days).longestStreak := by
    rw [computeStats_longest, hd]
    have := longestRun_ge a m [] hm
    rwa [List.append_nil] at this
  omega

/-- Claim C4 amended: `longestStreak >= currentStreak` IS a general law of
`computeStats`: it holds for every day sequence. -/
theorem C4_amended_longest_ge_current (days : List Day) :
    (computeStats days).currentStreak ≤ (computeStats days).longestStreak := by
  obtain ⟨a, m, hd, hm, hlen, -⟩ := currentStreak_decomp days
  rw [← hlen, computeStats_longest, hd]
  have := longestRun_ge a m [] hm
  rwa [List.append_nil] at this

/-- Claim C8: the empty day sequence yields `total = 0`, `longestStreak = 0`
and `currentStreak = 0`. -/
theorem C8_empty_all_zero :
    computeStats [] = { total := 0, longestStreak := 0, currentStreak := 0 } := rfl

/-! ### Claims about the calendar flattening -/

/-- Claim C5 counterexample: a calendar whose single day reports
`contributionCount = -1` (a valid number, so not coerced) flattens to an
entry with `count = -1 < 0`: the script's `Number(x) || 0` coercion does not
clamp negative numbers to zero. -/
theorem C5_counterexample :
    ¬ ∀ d ∈ flattenCalendar ⟨[⟨[⟨"2024-01-01", some (-1)⟩]⟩]⟩, 0 ≤ d.count := by
  decide

/-- Claim C5 amended: the aggregator flattens weeks into `{date, count}`
pairs with a missing or invalid `contributionCount` coerced to `0`; provided
every numeric `contributionCount` of the response is non-negative, every
entry of the flattened sequence has `count ≥ 0`. -/
theorem C5_flatten_coerces_and_nonneg (cal : Calendar)
    (h : ∀ w ∈ cal.weeks, ∀ d ∈ w.contributionDays, 0 ≤ d.contributionCount.getD 0) :
    coerceCount none = 0 ∧ ∀ d ∈ flattenCalendar cal, 0 ≤ d.count := by
  refine ⟨rfl, ?_⟩
  intro d hd
  simp only [flattenCalendar, List.mem_flatMap, List.mem_map] at hd
  obtain ⟨w, hw, rd, hrd, rfl⟩ := hd
  have hn := h w hw rd hrd
  cases hc : rd.contributionCount with
  | none => simp [coerceCount]
  | some n =>
    rw [hc] at hn
    simp only [Option.getD_some] at hn
    simpa [coerceCount, hc] using hn

/-- Witness for C5, on a calendar with one valid and one missing count. -/
theorem C5_witness :
    coerceCount none = 0 ∧
      ∀ d ∈ flattenCalendar ⟨[⟨[⟨"2024-01-01", some 4⟩, ⟨"2024-01-02", none⟩]⟩]⟩,
        0 ≤ d.count :=
  C5_flatten_coerces_and_nonneg ⟨[⟨[⟨"2024-01-01", some 4⟩, ⟨"2024-01-02", none⟩]⟩]⟩
    (by decide)

/-! ### Lemmas about the file patcher -/

theorem beginsWith_iff (pat : List Char) :
    ∀ s, beginsWith pat s = true ↔ ∃ t, s = pat ++ t := by
  induction pat with
  | nil =>
    intro s
    simp [beginsWith]
  | cons p ps ih =>
    intro s
    cases s with
    | nil => simp [beginsWith]
    | cons c cs =>
      simp only [beginsWith, Bool.and_eq_true, beq_iff_eq]
      constructor
      · rintro ⟨rfl, h⟩
        obtain ⟨t, rfl⟩ := (ih cs).mp h
        exact ⟨t, rfl⟩
      · rintro ⟨t, h⟩
        rw [List.cons_append] at h
        injection h with h1 h2
        exact ⟨h1.symm, (ih cs).mpr ⟨t, h2⟩⟩

theorem beginsWith_append (pat t : List Char) : beginsWith pat (pat ++ t) = true :=
  (beginsWith_iff pat (pat ++ t)).mpr ⟨t, rfl⟩

theorem splitAtFirst_sound (pat s : List Char) :
    ∀ pre post, splitAtFirst pat s = some (pre, post) → s = pre ++ pat ++ post := by
  induction s with
  | nil =>
    intro pre post h
    simp only [splitAtFirst] at h
    split at h
    · rename_i hb
      obtain ⟨t, ht⟩ := (beginsWith_iff pat []).mp hb
      obtain ⟨hp, -⟩ := List.append_eq_nil.mp ht.symm
      simp only [Option.some.injEq, Prod.mk.injEq] at h
      obtain ⟨h1, h2⟩ := h
      rw [← h1, ← h2, hp]
      rfl
    · simp at h
  | cons c cs ih =>
    intro pre post h
    simp only [splitAtFirst] at h
    split at h
    · rename_i hb
      obtain ⟨t, ht⟩ := (beginsWith_iff pat (c :: cs)).mp hb
      simp only [Option.some.injEq, Prod.mk.injEq] at h
      obtain ⟨h1, h2⟩ := h
      rw [← h1, ← h2, ht, List.nil_append, List.drop_left]
    · rcases hsp : splitAtFirst pat cs with - | pr
      · rw [hsp] at h
        simp at h
      · obtain ⟨pr1, pr2⟩ := pr
        rw [hsp] at h
        simp only [Option.map_some', Option.some.injEq, Prod.mk.injEq] at h
        obtain ⟨h1, h2⟩ := h
        rw [← h1, ← h2]
        have := ih pr1 pr2 hsp
        rw [List.cons_append, List.cons_append, ← this]

theorem splitAtFirst_min (pat s : List Char) :
    ∀ pre post, splitAtFirst pat s = some (pre, post) →
      ∀ i, i < pre.length → beginsWith pat (s.drop i) = false := by
  induction s with
  | nil =>
    intro pre post h i hi
    simp only [splitAtFirst] at h
    split at h
    · simp only [Option.some.injEq, Prod.mk.injEq] at h
      obtain ⟨h1, -⟩ := h
      rw [← h1] at hi
      simp at hi
    · simp at h
  | cons c cs ih =>
    intro pre post h i hi
    simp only [splitAtFirst] at h
    split at h
    · simp only [Option.some.injEq, Prod.mk.injEq] at h
      obtain ⟨h1, -⟩ := h
      rw [← h1] at hi
      simp at hi
    · rename_i hb
      rcases hsp : splitAtFirst pat cs with - | pr
      · rw [hsp] at h
        simp at h
      · obtain ⟨pr1, pr2⟩ := pr
        rw [hsp] at h
        simp only [Option.map_some', Option.some.injEq, Prod.mk.injEq] at h
        obtain ⟨h1, h2⟩ := h
        cases i with
        | zero =>
          simp only [List.drop_zero]
          simpa using hb
        | succ j =>
          rw [← h1] at hi
          simp only [List.length_cons, Nat.succ_lt_succ_iff] at hi
          have := ih pr1 pr2 hsp j hi
          simpa [List.drop_succ_cons] using this

theorem splitAtFirst_here (pat post : List Char) :
    splitAtFirst pat (pat ++ post) = some ([], post) := by
  cases hs : pat ++ post with
  | nil =>
    obtain ⟨hp, hq⟩ := List.append_eq_nil.mp hs
    subst hp
    subst hq
    rfl
  | cons c cs =>
    simp only [splitAtFirst]
    rw [if_pos (by rw [← hs]; exact beginsWith_append pat post)]
    rw [← hs, List.drop_left]

theorem splitAtFirst_complete (pat : List Char) :
    ∀ pre post,
      (∀ i, i < pre.length → beginsWith pat ((pre ++ pat ++ post).drop i) = false) →
      splitAtFirst pat (pre ++ pat ++ post) = some (pre, post) := by
  intro pre
  induction pre with
  | nil =>
    intro post hmin
    rw [List.nil_append]
    exact splitAtFirst_here pat post
  | cons c pre2 ih =>
    intro post hmin
    have hc : (c :: pre2) ++ pat ++ post = c :: (pre2 ++ pat ++ post) := by simp
    have h0 : beginsWith pat (c :: (pre2 ++ pat ++ post)) = false := by
      have := hmin 0 (Nat.succ_pos pre2.length)
      rw [hc] at this
      simpa using this
    have hrec : splitAtFirst pat (pre2 ++ pat ++ post) = some (pre2, post) := by
      apply ih
      intro i hi
      have := hmin (i + 1) (Nat.succ_lt_succ hi)
      rw [hc] at this
      simpa [List.drop_succ_cons] using this
    have hne : ¬ beginsWith pat (c :: (pre2 ++ pat ++ post)) = true := by
      rw [h0]
      simp
    rw [hc]
    simp only [splitAtFirst]
    rw [if_neg hne, hrec]
    rfl

theorem hasOccur_of_eq (pat y : List Char) :
    ∀ x s, s = x ++ pat ++ y → hasOccur pat s = true := by
  intro x
  induction x with
  | nil =>
    intro s hs
    rw [List.nil_append] at hs
    subst hs
    rw [hasOccur, splitAtFirst_here]
    rfl
  | cons c x2 ih =>
    intro s hs
    have hc : (c :: x2) ++ pat ++ y = c :: (x2 ++ pat ++ y) := by simp
    rw [hs, hc, hasOccur]
    simp only [splitAtFirst]
    split
    · rfl
    · rcases hsp : splitAtFirst pat (x2 ++ pat ++ y) with - | pr
      · exfalso
        have := ih (x2 ++ pat ++ y) rfl
        rw [hasOccur, hsp] at this
        simp at this
      · rfl

theorem hasOccur_iff (pat s : List Char) :
    hasOccur pat s = true ↔ ∃ x y, s = x ++ pat ++ y := by
  constructor
  · intro h
    rw [hasOccur] at h
    rcases hsp : splitAtFirst pat s with - | pr
    · rw [hsp] at h
      simp at h
    · exact ⟨pr.1, pr.2, splitAtFirst_sound pat s pr.1 pr.2 (by rw [hsp])⟩
  · rintro ⟨x, y, hs⟩
    exact hasOccur_of_eq pat y x s hs

theorem span_imp_hasSpan (p q s : List Char)
    (h : ∃ x m y, s = x ++ p ++ m ++ q ++ y) : hasSpan p q s = true := by
  obtain ⟨x, m, y, hs⟩ := h
  have hocc : hasOccur p s = true :=
    hasOccur_of_eq p (m ++ q ++ y) x s (by rw [hs]; simp [List.append_assoc])
  rw [hasOccur] at hocc
  rcases hsp : splitAtFirst p s with - | pr
  · rw [hsp] at hocc
    simp at hocc
  · obtain ⟨pre, rest⟩ := pr
    have hsound : s = pre ++ p ++ rest := splitAtFirst_sound p s pre rest hsp
    have hminS := splitAtFirst_min p s pre rest hsp
    have hle : pre.length ≤ x.length := by
      by_contra hlt
      push_neg at hlt
      have h1 := hminS x.length hlt
      have h2 : s.drop x.length = p ++ (m ++ (q ++ y)) := by
        rw [hs, show x ++ p ++ m ++ q ++ y = x ++ (p ++ (m ++ (q ++ y))) from by
          simp [List.append_assoc], List.drop_left]
      rw [h2, beginsWith_append] at h1
      simp at h1
    obtain ⟨x2, hx2⟩ : ∃ x2, x = pre ++ x2 := by
      refine ⟨x.drop pre.length, ?_⟩
      have h3 : s.take pre.length = pre := by
        rw [hsound, show pre ++ p ++ rest = pre ++ (p ++ rest) from by
          simp [List.append_assoc], List.take_left]
      have h4 : s.take pre.length = x.take pre.length := by
        rw [hs, show x ++ p ++ m ++ q ++ y = x ++ (p ++ (m ++ (q ++ y))) from by
          simp [List.append_assoc], List.take_append_of_le_length hle]
      conv_lhs => rw [← List.take_append_drop pre.length x]
      rw [← h4, h3]
    have e1 : pre ++ (x2 ++ (p ++ (m ++ (q ++ y)))) = pre ++ (p ++ rest) := by
      rw [show pre ++ (x2 ++ (p ++ (m ++ (q ++ y)))) = (pre ++ x2) ++ p ++ m ++ q ++ y from by
        simp [List.append_assoc]]
      rw [← hx2, ← hs, hsound]
      simp [List.append_assoc]
    have hcan : x2 ++ (p ++ (m ++ (q ++ y))) = p ++ rest := List.append_cancel_left e1
    have hrest : rest = ((x2 ++ p).drop p.length) ++ (m ++ (q ++ y)) := by
      have e2 : rest = (p ++ rest).drop p.length := (List.drop_left p rest).symm
      rw [e2, ← hcan]
      rw [show x2 ++ (p ++ (m ++ (q ++ y))) = (x2 ++ p) ++ (m ++ (q ++ y)) from by
        simp [List.append_assoc]]
      rw [List.drop_append_of_le_length (by simp)]
    have hoccq : hasOccur q rest = true :=
      hasOccur_of_eq q y (((x2 ++ p).drop p.length) ++ m) rest
        (by rw [hrest]; simp [List.append_assoc])
    simp only [hasSpan]
    rw [hsp]
    exact hoccq

theorem hasSpan_imp_span (p q s : List Char) (h : hasSpan p q s = true) :
    ∃ x m y, s = x ++ p ++ m ++ q ++ y := by
  rw [hasSpan] at h
  rcases hsp : splitAtFirst p s with - | pr
  · rw [hsp] at h
    simp at h
  · obtain ⟨pre, rest⟩ := pr
    rw [hsp] at h
    have h2 : hasOccur q rest = true := h
    obtain ⟨x2, y2, hr⟩ := (hasOccur_iff q rest).mp h2
    have hsound := splitAtFirst_sound p s pre rest hsp
    exact ⟨pre, x2, y2, by rw [hsound, hr]; simp [List.append_assoc]⟩

theorem injectStats_replaces (a m b block : List Char)
    (hS : ∀ i, i < a.length →
      beginsWith START_MARKER
        ((a ++ START_MARKER ++ m ++ END_MARKER ++ b).drop i) = false)
    (hE : ∀ j, j < m.length →
      beginsWith END_MARKER ((m ++ END_MARKER ++ b).drop j) = false) :
    injectStats (a ++ START_MARKER ++ m ++ END_MARKER ++ b) block =
      Except.ok (a ++ block ++ b) := by
  have hca : a ++ START_MARKER ++ m ++ END_MARKER ++ b
      = a ++ START_MARKER ++ (m ++ END_MARKER ++ b) := by
    simp [List.append_assoc]
  have hS2 : ∀ i, i < a.length →
      beginsWith START_MARKER
        ((a ++ START_MARKER ++ (m ++ END_MARKER ++ b)).drop i) = false := by
    intro i hi
    rw [← hca]
    exact hS i hi
  have hsplitS := splitAtFirst_complete START_MARKER a (m ++ END_MARKER ++ b) hS2
  have hsplitE := splitAtFirst_complete END_MARKER m b hE
  have hoccS : hasOccur START_MARKER (a ++ START_MARKER ++ m ++ END_MARKER ++ b) = true :=
    hasOccur_of_eq START_MARKER (m ++ END_MARKER ++ b) a _ hca
  have hoccE : hasOccur END_MARKER (a ++ START_MARKER ++ m ++ END_MARKER ++ b) = true :=
    hasOccur_of_eq END_MARKER b (a ++ START_MARKER ++ m) _ (by simp [List.append_assoc])
  have hcond : (hasOccur START_MARKER (a ++ START_MARKER ++ m ++ END_MARKER ++ b) &&
      hasOccur END_MARKER (a ++ START_MARKER ++ m ++ END_MARKER ++ b)) = true := by
    rw [hoccS, hoccE]
    rfl
  unfold injectStats
  rw [if_pos hcond]
  congr 1
  rw [hca]
  simp only [replaceSpan, hsplitS, hsplitE]

/-! ### Claims about the file patcher -/

/-- Claim C6: for content of the form `a ++ S ++ m ++ E ++ b` where the shown
start sentinel is the first occurrence of `S` in the content (no occurrence
of `S` begins before it) and the shown end sentinel is the earliest
occurrence of `E` after that `S` (non-greedy: no occurrence of `E` begins
inside `m`), patching replaces exactly the span from `S` through `E`
inclusive with the rendered block: the written result is `a ++ block ++ b`,
so every character before the start sentinel and after the end sentinel is
unchanged. -/
theorem C6_patch_replaces_exact_span (a m b block : List Char)
    (hS : ∀ i, i < a.length →
      beginsWith START_MARKER
        ((a ++ START_MARKER ++ m ++ END_MARKER ++ b).drop i) = false)
    (hE : ∀ j, j < m.length →
      beginsWith END_MARKER ((m ++ END_MARKER ++ b).drop j) = false) :
    injectStats (a ++ START_MARKER ++ m ++ END_MARKER ++ b) block =
      Except.ok (a ++ block ++ b) :=
  injectStats_replaces a m b block hS hE

/-- Witness for C6 at concrete one-character surroundings. -/
theorem C6_witness :
    injectStats ("A".toList ++ START_MARKER ++ "M".toList ++ END_MARKER ++ "B".toList)
      "X".toList = Except.ok ("A".toList ++ "X".toList ++ "B".toList) :=
  C6_patch_replaces_exact_span "A".toList "M".toList "B".toList "X".toList
    (by decide) (by decide)

/-- Claim C7: when either sentinel is absent from the file content, the patch
operation fails with the script's ConfigError; the error is thrown before the
write call, so the file is not modified (the embedding returns
`Except.error`, and no written content is produced). -/
theorem C7_missing_sentinel_errors (content block : List Char)
    (h : (¬ ∃ x y, content = x ++ START_MARKER ++ y) ∨
         (¬ ∃ x y, content = x ++ END_MARKER ++ y)) :
    injectStats content block =
      Except.error "README is missing required GITHUB-STATS markers." := by
  have hcond : ¬ ((hasOccur START_MARKER content && hasOccur END_MARKER content) = true) := by
    intro hc
    rw [Bool.and_eq_true] at hc
    rcases h with h | h
    · exact h ((hasOccur_iff START_MARKER content).mp hc.1)
    · exact h ((hasOccur_iff END_MARKER content).mp hc.2)
  unfold injectStats
  rw [if_neg hcond]

/-- Witness for C7 at content with no sentinel at all. -/
theorem C7_witness :
    injectStats "hello".toList "X".toList =
      Except.error "README is missing required GITHUB-STATS markers." :=
  C7_missing_sentinel_errors "hello".toList "X".toList
    (Or.inl fun hex =>
      absurd ((hasOccur_iff START_MARKER "hello".toList).mpr hex) (by decide))

/-- Claim C9: when both sentinels occur in the content but no
start-sentinel-then-end-sentinel span exists (every end sentinel occurrence
is before the start sentinel), the patch does not fail: the sentinel check
passes, the replacement matches nothing, and the content written back is
identical to the content read. -/
theorem C9_no_span_writes_back_unchanged (content block : List Char)
    (hS : ∃ x y, content = x ++ START_MARKER ++ y)
    (hE : ∃ x y, content = x ++ END_MARKER ++ y)
    (hno : ¬ ∃ x m y, content = x ++ START_MARKER ++ m ++ END_MARKER ++ y) :
    injectStats content block = Except.ok content := by
  have h1 : hasOccur START_MARKER content = true := (hasOccur_iff _ _).mpr hS
  have h2 : hasOccur END_MARKER content = true := (hasOccur_iff _ _).mpr hE
  have hcond : (hasOccur START_MARKER content && hasOccur END_MARKER content) = true := by
    rw [h1, h2]
    rfl
  have hnospan : hasSpan START_MARKER END_MARKER content = false := by
    cases hb : hasSpan START_MARKER END_MARKER content
    · rfl
    · exact absurd (hasSpan_imp_span _ _ _ hb) hno
  unfold injectStats
  rw [if_pos hcond]
  congr 1
  rcases hsp : splitAtFirst START_MARKER content with - | pr
  · rw [hasOccur, hsp] at h1
    simp at h1
  · obtain ⟨pre, rest⟩ := pr
    have h3 : hasOccur END_MARKER rest = false := by
      rw [hasSpan, hsp] at hnospan
      exact hnospan
    simp only [replaceSpan, hsp]
    rcases hspe : splitAtFirst END_MARKER rest with - | pr2
    · rfl
    · rw [hasOccur, hspe] at h3
      simp at h3

/-- Witness for C9: the end sentinel followed by the start sentinel. -/
theorem C9_witness :
    injectStats (END_MARKER ++ START_MARKER) "X".toList =
      Except.ok (END_MARKER ++ START_MARKER) :=
  C9_no_span_writes_back_unchanged (END_MARKER ++ START_MARKER) "X".toList
    ⟨END_MARKER, [], by simp⟩
    ⟨[], START_MARKER, by simp⟩
    (fun hex =>
      absurd (span_imp_hasSpan START_MARKER END_MARKER (END_MARKER ++ START_MARKER) hex)
        (by decide))

/-- Claim C10: when the content contains two disjoint
start-sentinel-through-end-sentinel spans, the patch replaces only the first
one; the later span, its sentinels and the content between and after them are
unchanged in the written result. -/
theorem C10_patch_replaces_first_span_only (a m1 mid m2 b block : List Char)
    (hS : ∀ i, i < a.length →
      beginsWith START_MARKER
        ((a ++ START_MARKER ++ m1 ++ END_MARKER ++ mid ++ START_MARKER ++ m2 ++
          END_MARKER ++ b).drop i) = false)
    (hE : ∀ j, j < m1.length →
      beginsWith END_MARKER
        ((m1 ++ END_MARKER ++ mid ++ START_MARKER ++ m2 ++ END_MARKER ++ b).drop j)
        = false) :
    injectStats
        (a ++ START_MARKER ++ m1 ++ END_MARKER ++ mid ++ START_MARKER ++ m2 ++
          END_MARKER ++ b) block =
      Except.ok (a ++ block ++ (mid ++ START_MARKER ++ m2 ++ END_MARKER ++ b)) := by
  have hb : a ++ START_MARKER ++ m1 ++ END_MARKER ++ mid ++ START_MARKER ++ m2 ++
        END_MARKER ++ b
      = a ++ START_MARKER ++ m1 ++ END_MARKER ++
        (mid ++ START_MARKER ++ m2 ++ END_MARKER ++ b) := by
    simp [List.append_assoc]
  have hb2 : m1 ++ END_MARKER ++ mid ++ START_MARKER ++ m2 ++ END_MARKER ++ b
      = m1 ++ END_MARKER ++ (mid ++ START_MARKER ++ m2 ++ END_MARKER ++ b) := by
    simp [List.append_assoc]
  rw [hb]
  apply injectStats_replaces
  · intro i hi
    rw [← hb]
    exact hS i hi
  · intro j hj
    rw [← hb2]
    exact hE j hj

/-- Witness for C10 with two concrete spans. -/
theorem C10_witness :
    injectStats
        ("A".toList ++ START_MARKER ++ "M".toList ++ END_MARKER ++ "Z".toList ++
          START_MARKER ++ "W".toList ++ END_MARKER ++ "B".toList) "X".toList =
      Except.ok ("A".toList ++ "X".toList ++
        ("Z".toList ++ START_MARKER ++ "W".toList ++ END_MARKER ++ "B".toList)) :=
  C10_patch_replaces_first_span_only "A".toList "M".toList "Z".toList "W".toList
    "B".toList "X".toList (by decide) (by decide)
